import Mathlib

/-!
# Verification of the financial-sentiment app's text pipeline

Shallow embedding of `src/app.py`: the basic text normalizer
(`basic_preprocess`), the normalizer with NLTK fallback
(`preprocess_text`), and the classifier adapter (`predict_sentiment`).

Strings are modelled over their character lists; the regular-expression
steps `re.sub(r'[^a-zA-Z\s]', '', ·)` and `re.sub(r'\s+', ' ', ·)` are
modelled character by character on the ASCII fragment (`\s` as the six
ASCII whitespace characters, `str.lower` as the ASCII case map, which is
what these inputs exercise).  External fallible calls (the NLTK imports,
`word_tokenize`, `stopwords.words`, and the model/tokenizer invocation)
are parameters returning `Except`, so that raising and catching is
explicit in the types.
-/

/-- The ASCII whitespace characters matched by the regex class `\s`. -/
def isPySpace (c : Char) : Bool :=
  c = ' ' || c = '\t' || c = '\n' || c = '\r' || c = '\x0b' || c = '\x0c'

/-- The character class kept by `re.sub(r'[^a-zA-Z\s]', '', text)`:
ASCII letters and whitespace survive, everything else is deleted. -/
def keepChar (c : Char) : Bool :=
  c.isAlpha || isPySpace c

/-- `re.sub(r'\s+', ' ', text)`: every maximal run of whitespace becomes
a single space. -/
def collapseWs : List Char → List Char
  | [] => []
  | c :: cs =>
    if isPySpace c then
      if (collapseWs cs).head? = some ' ' then collapseWs cs else ' ' :: collapseWs cs
    else c :: collapseWs cs

/-- `str.strip()`: drop leading and trailing whitespace. -/
def stripWs (l : List Char) : List Char :=
  ((l.dropWhile isPySpace).reverse.dropWhile isPySpace).reverse

/-- The cleaning steps shared by both preprocessing paths:
`text.lower()`, strip non-letters, collapse whitespace runs, trim. -/
def cleanChars (s : String) : List Char :=
  stripWs (collapseWs ((s.toList.map Char.toLower).filter keepChar))

/-- Accumulator form of `str.split()`; `cur` holds the characters of the
pending token in reverse. -/
def splitWsAux : List Char → List Char → List (List Char)
  | cur, [] => if cur = [] then [] else [cur.reverse]
  | cur, c :: cs =>
    if isPySpace c then
      if cur = [] then splitWsAux [] cs else cur.reverse :: splitWsAux [] cs
    else splitWsAux (c :: cur) cs

/-- `str.split()` with no argument: split on whitespace runs, never
producing empty tokens. -/
def splitWs (l : List Char) : List (List Char) :=
  splitWsAux [] l

/-- `' '.join(tokens)`. -/
def joinTokens : List (List Char) → List Char
  | [] => []
  | [t] => t
  | t :: ts => t ++ ' ' :: joinTokens ts

/-- The ASCII apostrophe, U+0027 (written via its code point). -/
def apos : Char := Char.ofNat 39

/-- The stopword entry `you're`. -/
def sw_youre : String := String.mk ['y', 'o', 'u', apos, 'r', 'e']

/-- The stopword entry `you've`. -/
def sw_youve : String := String.mk ['y', 'o', 'u', apos, 'v', 'e']

/-- The stopword entry `you'll`. -/
def sw_youll : String := String.mk ['y', 'o', 'u', apos, 'l', 'l']

/-- The stopword entry `you'd`. -/
def sw_youd : String := String.mk ['y', 'o', 'u', apos, 'd']

/-- The stopword entry `she's`. -/
def sw_shes : String := String.mk ['s', 'h', 'e', apos, 's']

/-- The stopword entry `it's`. -/
def sw_its : String := String.mk ['i', 't', apos, 's']

/-- The stopword entry `that'll`. -/
def sw_thatll : String := String.mk ['t', 'h', 'a', 't', apos, 'l', 'l']

/-- The fixed `basic_stopwords` set of `basic_preprocess`, in source
order (a Python set literal; order is irrelevant to membership). -/
def basic_stopwords : List String :=
  ["i", "me", "my", "myself", "we", "our", "ours", "ourselves", "you",
   sw_youre, sw_youve, sw_youll, sw_youd, "your", "yours", "yourself",
   "yourselves", "he", "him", "his", "himself", "she", sw_shes, "her",
   "hers", "herself", "it", sw_its, "its", "itself", "they", "them",
   "their", "theirs", "themselves", "what", "which", "who", "whom",
   "this", "that", sw_thatll, "these", "those", "am", "is", "are", "was",
   "were", "be", "been", "being", "have", "has", "had", "having", "do",
   "does", "did", "doing", "a", "an", "the", "and", "but", "if", "or",
   "because", "as", "until", "while", "of", "at", "by", "for", "with",
   "about", "against", "between", "into", "through", "during", "before",
   "after", "above", "below", "to", "from", "up", "down", "in", "out",
   "on", "off", "over", "under", "again", "further", "then", "once"]

/-- The body of `basic_preprocess` on a string input, parametrized by
the stopword list: clean, split into tokens, drop stopwords, re-join
with single spaces. -/
def basic_preprocess_with (sw : List String) (text : String) : String :=
  let tokens := splitWs (cleanChars text)
  String.mk (joinTokens (tokens.filter (fun tok => !(sw.contains (String.mk tok)))))

/-- `basic_preprocess`: non-string input (modelled as `none`) yields
`''`; otherwise the basic cleaning pipeline with `basic_stopwords`. -/
def basic_preprocess : Option String → String
  | none => ""
  | some text => basic_preprocess_with basic_stopwords text

/-- The variant stopword list with every apostrophe-containing entry
removed. -/
def basic_stopwords_noapo : List String :=
  basic_stopwords.filter (fun w => !(w.toList.contains apos))

/-- The variant of `basic_preprocess` whose stopword list omits all
apostrophe-containing entries. -/
def basic_preprocess_noapo : Option String → String
  | none => ""
  | some text => basic_preprocess_with basic_stopwords_noapo text

/-- `preprocess_text`: when NLTK is not ready, fall back to
`basic_preprocess`; otherwise run the `try` block, whose fallible
external steps (the NLTK imports, `word_tokenize`,
`stopwords.words('english')`) are parameters returning `Except`; any
failure among them falls back to `basic_preprocess` for that call. -/
def preprocess_text (imports : Except String Unit)
    (word_tokenize : String → Except String (List String))
    (stopwords_words : Except String (List String))
    (nltk_ready : Bool) (text : Option String) : String :=
  if nltk_ready = false then basic_preprocess text
  else
    match imports with
    | Except.error _ => basic_preprocess text
    | Except.ok _ =>
      match text with
      | none => ""
      | some s =>
        match word_tokenize (String.mk (cleanChars s)) with
        | Except.error _ => basic_preprocess text
        | Except.ok tokens =>
          match stopwords_words with
          | Except.error _ => basic_preprocess text
          | Except.ok stop_words =>
            String.intercalate " " (tokens.filter (fun tok => !(stop_words.contains tok)))

/-- `tf.nn.softmax` over a row of logits, as real numbers:
`probs[i] = exp(logits[i]) / Σ_j exp(logits[j])`. -/
noncomputable def softmax (l : List ℝ) : List ℝ :=
  l.map (fun x => Real.exp x / (l.map Real.exp).sum)

/-- Accumulator form of `np.argmax`: `best`/`bestIdx` track the largest
value seen so far and its (first) index, `i` the index of the head. -/
noncomputable def argmaxGo (best : ℝ) (bestIdx i : ℕ) : List ℝ → ℕ
  | [] => bestIdx
  | x :: xs => if best < x then argmaxGo x i (i + 1) xs else argmaxGo best bestIdx (i + 1) xs

/-- `np.argmax`: index of the first occurrence of the maximum
(`0` on an empty list, which `np.argmax` rejects instead). -/
noncomputable def argmax : List ℝ → ℕ
  | [] => 0
  | x :: xs => argmaxGo x 0 1 xs

/-- `predict_sentiment`, instrumented with a flag recording whether the
tokenizer/model pair was invoked.  The external
`tokenizer(...)`/`model(inputs)`/`.logits` chain is one fallible
parameter `model` producing the logits row; the in-code steps (the
empty-text short circuit, softmax, argmax, label choice, confidence
extraction) follow the source.  No exception handler is present: a
model error is returned as `Except.error`, i.e. propagates. -/
noncomputable def predict_sentiment_run (model : String → Except String (List ℝ))
    (imports : Except String Unit)
    (word_tokenize : String → Except String (List String))
    (stopwords_words : Except String (List String))
    (nltk_ready : Bool) (text : Option String) :
    Except String (String × ℝ) × Bool :=
  let processed := preprocess_text imports word_tokenize stopwords_words nltk_ready text
  if processed = "" then (Except.ok ("Unknown", 0), false)
  else
    match model processed with
    | Except.error e => (Except.error e, true)
    | Except.ok logits =>
      let probs := softmax logits
      let prediction := argmax probs
      let sentiment := if prediction = 1 then "Positive" else "Negative/Neutral"
      let confidence := probs.getD prediction 0
      (Except.ok (sentiment, confidence), true)

/-- The value returned (or exception propagated) by `predict_sentiment`. -/
noncomputable def predict_sentiment (model : String → Except String (List ℝ))
    (imports : Except String Unit)
    (word_tokenize : String → Except String (List String))
    (stopwords_words : Except String (List String))
    (nltk_ready : Bool) (text : Option String) :
    Except String (String × ℝ) :=
  (predict_sentiment_run model imports word_tokenize stopwords_words nltk_ready text).1

/-- No two adjacent characters are both whitespace (the shape left by
`re.sub(r'\s+', ' ', ·)`). -/
def noWsRun : List Char → Prop
  | [] => True
  | [_] => True
  | c :: d :: cs => ¬(isPySpace c = true ∧ isPySpace d = true) ∧ noWsRun (d :: cs)

/-- A concrete model invocation that always raises (its exception text
standing for the raised `RuntimeError`). -/
def modelBoom : String → Except String (List ℝ) := fun _ => Except.error "RuntimeError"

/-- A concrete model invocation that always succeeds with two equal
logits. -/
def modelConst : String → Except String (List ℝ) := fun _ => Except.ok [0, 0]

/-- A concrete `word_tokenize` that succeeds, splitting on spaces. -/
def nltkTokOk : String → Except String (List String) := fun s => Except.ok (s.splitOn " ")

/-- A concrete `word_tokenize` that always raises (a `LookupError` for a
missing corpus). -/
def nltkTokFail : String → Except String (List String) := fun _ => Except.error "LookupError"

/-- A concrete `stopwords.words('english')` call that succeeds with an
empty list. -/
def nltkStopOk : Except String (List String) := Except.ok []

/-- A concrete `stopwords.words('english')` call that raises. -/
def nltkStopFail : Except String (List String) := Except.error "LookupError"


/-! ## Character-level facts about the ASCII case map -/

/-- `Char.isLower` via code points. -/
theorem char_isLower_iff (c : Char) : c.isLower = true ↔ 97 ≤ c.toNat ∧ c.toNat ≤ 122 := by
  simp only [Char.isLower, Bool.and_eq_true, decide_eq_true_eq]
  exact Iff.intro (fun h => ⟨h.1, h.2⟩) (fun h => ⟨h.1, h.2⟩)

/-- `Char.isUpper` via code points. -/
theorem char_isUpper_iff (c : Char) : c.isUpper = true ↔ 65 ≤ c.toNat ∧ c.toNat ≤ 90 := by
  simp only [Char.isUpper, Bool.and_eq_true, decide_eq_true_eq]
  exact Iff.intro (fun h => ⟨h.1, h.2⟩) (fun h => ⟨h.1, h.2⟩)

/-- `Char.ofNat` of a valid code point has that code point. -/
theorem char_ofNat_toNat (m : ℕ) (h : m.isValidChar) : (Char.ofNat m).toNat = m := by
  simp [Char.ofNat, h]; rfl

/-- `Char.toLower` fixes anything outside the uppercase range. -/
theorem toLower_eq_of_not_upper (c : Char) (h : ¬(65 ≤ c.toNat ∧ c.toNat ≤ 90)) :
    Char.toLower c = c := by
  unfold Char.toLower
  simp only [ge_iff_le]
  rw [if_neg h]

/-- `Char.toLower` shifts an uppercase letter down by 32. -/
theorem toLower_of_upper (c : Char) (h : 65 ≤ c.toNat ∧ c.toNat ≤ 90) :
    Char.toLower c = Char.ofNat (c.toNat + 32) := by
  unfold Char.toLower
  simp only [ge_iff_le]
  rw [if_pos h]

/-- A letter in the image of `Char.toLower` is a lowercase letter. -/
theorem toLower_isLower_of_isAlpha (d : Char) (h : (Char.toLower d).isAlpha = true) :
    (Char.toLower d).isLower = true := by
  by_cases hc : 65 ≤ d.toNat ∧ d.toNat ≤ 90
  · rw [toLower_of_upper d hc]
    rw [char_isLower_iff]
    rw [char_ofNat_toNat (d.toNat + 32) (Or.inl (by omega))]
    omega
  · rw [toLower_eq_of_not_upper d hc] at h ⊢
    simp only [Char.isAlpha, Bool.or_eq_true] at h
    rcases h with h | h
    · rw [char_isUpper_iff] at h; exact absurd h hc
    · exact h

/-- `Char.toLower` fixes lowercase letters. -/
theorem toLower_eq_self_of_isLower (c : Char) (h : c.isLower = true) : Char.toLower c = c := by
  rw [char_isLower_iff] at h
  exact toLower_eq_of_not_upper c (by omega)

/-- A lowercase letter is not whitespace. -/
theorem isPySpace_eq_false_of_isLower (c : Char) (h : c.isLower = true) :
    isPySpace c = false := by
  rw [char_isLower_iff] at h
  rcases hc : isPySpace c
  · rfl
  · exfalso
    simp only [isPySpace, Bool.or_eq_true, decide_eq_true_eq] at hc
    rcases hc with ((((h1 | h1) | h1) | h1) | h1) | h1 <;> (subst h1; revert h; decide)

/-- A kept character that is not whitespace is a letter. -/
theorem isAlpha_of_keepChar_not_space (c : Char) (h1 : keepChar c = true)
    (h2 : isPySpace c = false) : c.isAlpha = true := by
  simp only [keepChar, Bool.or_eq_true, h2] at h1
  simpa using h1

/-- Lowercase letters are kept by the letters-and-whitespace filter. -/
theorem keepChar_of_isLower (c : Char) (h : c.isLower = true) : keepChar c = true := by
  simp [keepChar, Char.isAlpha, h]

/-! ## Structure of the whitespace-handling steps -/

/-- Characters of the collapsed string are the space or characters of
the input. -/
theorem mem_collapseWs (l : List Char) (c : Char) (h : c ∈ collapseWs l) : c = ' ' ∨ c ∈ l := by
  induction l with
  | nil => simp [collapseWs] at h
  | cons d cs ih =>
    simp only [collapseWs] at h
    by_cases hd : isPySpace d = true
    · rw [if_pos hd] at h
      by_cases hh : (collapseWs cs).head? = some ' '
      · rw [if_pos hh] at h
        rcases ih h with h1 | h1
        · exact Or.inl h1
        · exact Or.inr (List.mem_cons_of_mem d h1)
      · rw [if_neg hh] at h
        rcases List.mem_cons.mp h with h1 | h1
        · exact Or.inl h1
        · rcases ih h1 with h2 | h2
          · exact Or.inl h2
          · exact Or.inr (List.mem_cons_of_mem d h2)
    · rw [if_neg hd] at h
      rcases List.mem_cons.mp h with h1 | h1
      · exact Or.inr (h1 ▸ List.mem_cons_self d cs)
      · rcases ih h1 with h2 | h2
        · exact Or.inl h2
        · exact Or.inr (List.mem_cons_of_mem d h2)

/-- Characters of the stripped string are characters of the input. -/
theorem mem_stripWs (l : List Char) (c : Char) (h : c ∈ stripWs l) : c ∈ l := by
  unfold stripWs at h
  rw [List.mem_reverse] at h
  replace h := List.Sublist.mem h (List.dropWhile_sublist _)
  rw [List.mem_reverse] at h
  exact List.Sublist.mem h (List.dropWhile_sublist _)

/-- Tokens produced by the splitter are nonempty and consist of
non-whitespace characters of the input (or of the pending prefix). -/
theorem splitWsAux_tokens (l : List Char) : ∀ (cur : List Char),
    (∀ c ∈ cur, isPySpace c = false) →
    ∀ tok ∈ splitWsAux cur l,
      tok ≠ [] ∧ ∀ c ∈ tok, (c ∈ l ∨ c ∈ cur) ∧ isPySpace c = false := by
  induction l with
  | nil =>
    intro cur hcur tok htok
    simp only [splitWsAux] at htok
    by_cases hc : cur = []
    · rw [if_pos hc] at htok; simp at htok
    · rw [if_neg hc] at htok
      rw [List.mem_singleton] at htok
      subst htok
      constructor
      · simpa using hc
      · intro c hcrev
        rw [List.mem_reverse] at hcrev
        exact ⟨Or.inr hcrev, hcur c hcrev⟩
  | cons d cs ih =>
    intro cur hcur tok htok
    simp only [splitWsAux] at htok
    by_cases hd : isPySpace d = true
    · rw [if_pos hd] at htok
      by_cases hc : cur = []
      · rw [if_pos hc] at htok
        obtain ⟨hne, hch⟩ := ih [] (by simp) tok htok
        refine ⟨hne, fun c hcm => ?_⟩
        obtain ⟨hin, hns⟩ := hch c hcm
        rcases hin with hin | hin
        · exact ⟨Or.inl (List.mem_cons_of_mem d hin), hns⟩
        · simp at hin
      · rw [if_neg hc] at htok
        rcases List.mem_cons.mp htok with htok | htok
        · subst htok
          constructor
          · simpa using hc
          · intro c hcrev
            rw [List.mem_reverse] at hcrev
            exact ⟨Or.inr hcrev, hcur c hcrev⟩
        · obtain ⟨hne, hch⟩ := ih [] (by simp) tok htok
          refine ⟨hne, fun c hcm => ?_⟩
          obtain ⟨hin, hns⟩ := hch c hcm
          rcases hin with hin | hin
          · exact ⟨Or.inl (List.mem_cons_of_mem d hin), hns⟩
          · simp at hin
    · rw [if_neg hd] at htok
      have hcur2 : ∀ c ∈ d :: cur, isPySpace c = false := by
        intro c hcm
        rcases List.mem_cons.mp hcm with hcm | hcm
        · subst hcm; simpa using hd
        · exact hcur c hcm
      obtain ⟨hne, hch⟩ := ih (d :: cur) hcur2 tok htok
      refine ⟨hne, fun c hcm => ?_⟩
      obtain ⟨hin, hns⟩ := hch c hcm
      rcases hin with hin | hin
      · exact ⟨Or.inl (List.mem_cons_of_mem d hin), hns⟩
      · rcases List.mem_cons.mp hin with hin | hin
        · subst hin; exact ⟨Or.inl (List.mem_cons_self _ _), hns⟩
        · exact ⟨Or.inr hin, hns⟩

/-- Splitting past a whitespace-free prefix accumulates it reversed. -/
theorem splitWsAux_append (t : List Char) : ∀ (cur rest : List Char),
    (∀ c ∈ t, isPySpace c = false) →
    splitWsAux cur (t ++ rest) = splitWsAux (t.reverse ++ cur) rest := by
  induction t with
  | nil => intro cur rest _; simp
  | cons c t2 ih =>
    intro cur rest ht
    have hc : isPySpace c = false := ht c (List.mem_cons_self _ _)
    simp only [List.cons_append, splitWsAux]
    rw [if_neg (by simp [hc])]
    have h2 := ih (c :: cur) rest (fun d hd => ht d (List.mem_cons_of_mem c hd))
    rw [List.reverse_cons, List.append_assoc, List.singleton_append]
    exact h2

/-- Splitting the space-joined tokens recovers them, provided every
token is nonempty and whitespace-free. -/
theorem splitWs_joinTokens (toks : List (List Char))
    (h : ∀ t ∈ toks, t ≠ [] ∧ ∀ c ∈ t, isPySpace c = false) :
    splitWs (joinTokens toks) = toks := by
  induction toks with
  | nil => rfl
  | cons t ts ih =>
    obtain ⟨hne, hcl⟩ := h t (List.mem_cons_self _ _)
    rcases ts with _ | ⟨t2, ts2⟩
    · show splitWsAux [] (joinTokens [t]) = [t]
      have hj : joinTokens [t] = t ++ [] := by simp [joinTokens]
      rw [hj, splitWsAux_append t [] [] hcl]
      simp only [splitWsAux, List.append_nil]
      rw [if_neg (by simpa using hne)]
      simp
    · have hj : joinTokens (t :: t2 :: ts2) = t ++ ' ' :: joinTokens (t2 :: ts2) := by
        simp [joinTokens]
      show splitWsAux [] (joinTokens (t :: t2 :: ts2)) = t :: t2 :: ts2
      rw [hj, splitWsAux_append t [] (' ' :: joinTokens (t2 :: ts2)) hcl]
      simp only [splitWsAux, List.append_nil]
      rw [if_pos (by decide)]
      rw [if_neg (by simpa using hne)]
      rw [List.reverse_reverse]
      exact congrArg (t :: ·) (ih (fun u hu => h u (List.mem_cons_of_mem t hu)))

/-- Characters of the joined tokens are token characters or the space. -/
theorem mem_joinTokens (toks : List (List Char)) (c : Char) (h : c ∈ joinTokens toks) :
    (∃ t ∈ toks, c ∈ t) ∨ c = ' ' := by
  induction toks with
  | nil => simp [joinTokens] at h
  | cons t ts ih =>
    rcases ts with _ | ⟨t2, ts2⟩
    · simp only [joinTokens] at h
      exact Or.inl ⟨t, List.mem_cons_self _ _, h⟩
    · rw [show joinTokens (t :: t2 :: ts2) = t ++ ' ' :: joinTokens (t2 :: ts2) from by
        simp [joinTokens]] at h
      rcases List.mem_append.mp h with h1 | h1
      · exact Or.inl ⟨t, List.mem_cons_self _ _, h1⟩
      · rcases List.mem_cons.mp h1 with h1 | h1
        · exact Or.inr h1
        · rcases ih h1 with ⟨u, hu, hcu⟩ | h2
          · exact Or.inl ⟨u, List.mem_cons_of_mem t hu, hcu⟩
          · exact Or.inr h2

/-- The joined tokens start with the first token's first character. -/
theorem joinTokens_cons_head (t : List Char) (ts : List (List Char)) (hne : t ≠ []) :
    (joinTokens (t :: ts)).head? = t.head? := by
  rcases t with _ | ⟨c, t2⟩
  · exact absurd rfl hne
  · rcases ts with _ | ⟨u, us⟩
    · simp [joinTokens]
    · simp [joinTokens]

/-- The head of the joined tokens is not whitespace. -/
theorem joinTokens_head_false (toks : List (List Char))
    (h : ∀ t ∈ toks, t ≠ [] ∧ ∀ c ∈ t, isPySpace c = false) :
    ∀ d, (joinTokens toks).head? = some d → isPySpace d = false := by
  intro d hd
  rcases toks with _ | ⟨t, ts⟩
  · simp [joinTokens] at hd
  · obtain ⟨hne, hcl⟩ := h t (List.mem_cons_self _ _)
    rw [joinTokens_cons_head t ts hne] at hd
    rcases t with _ | ⟨c, t2⟩
    · exact absurd rfl hne
    · simp only [List.head?_cons, Option.some.injEq] at hd
      subst hd
      exact hcl _ (List.mem_cons_self _ _)

/-- The joined tokens end with a non-whitespace character (or are
empty). -/
theorem joinTokens_concat (toks : List (List Char))
    (h : ∀ t ∈ toks, t ≠ [] ∧ ∀ c ∈ t, isPySpace c = false) :
    joinTokens toks = [] ∨ ∃ l2 c, joinTokens toks = l2 ++ [c] ∧ isPySpace c = false := by
  induction toks with
  | nil => exact Or.inl rfl
  | cons t ts ih =>
    obtain ⟨hne, hcl⟩ := h t (List.mem_cons_self _ _)
    rcases ts with _ | ⟨u, us⟩
    · rcases List.eq_nil_or_concat t with rfl | ⟨l2, c, hc⟩
      · exact absurd rfl hne
      · right
        refine ⟨l2, c, ?_, hcl c (by rw [hc]; simp [List.concat_eq_append])⟩
        rw [show joinTokens [t] = t from by simp [joinTokens], hc]
        simp [List.concat_eq_append]
    · rcases ih (fun v hv => h v (List.mem_cons_of_mem t hv)) with hnil | ⟨l2, c, hj, hc⟩
      · exfalso
        have hu := h u (List.mem_cons_of_mem t (List.mem_cons_self _ _))
        have hh := joinTokens_cons_head u us hu.1
        rw [hnil] at hh
        rcases u with _ | ⟨x, u2⟩
        · exact absurd rfl hu.1
        · simp at hh
      · right
        refine ⟨t ++ ' ' :: l2, c, ?_, hc⟩
        rw [show joinTokens (t :: u :: us) = t ++ ' ' :: joinTokens (u :: us) from by
          simp [joinTokens], hj]
        simp

/-- The last character of the joined tokens (seen as the head of the
reversal) is not whitespace. -/
theorem joinTokens_reverse_head (toks : List (List Char))
    (h : ∀ t ∈ toks, t ≠ [] ∧ ∀ c ∈ t, isPySpace c = false) :
    ∀ d, (joinTokens toks).reverse.head? = some d → isPySpace d = false := by
  intro d hd
  rcases joinTokens_concat toks h with hnil | ⟨l2, c, hj, hc⟩
  · rw [hnil] at hd; simp at hd
  · rw [hj, List.reverse_append] at hd
    simp only [List.reverse_singleton, List.singleton_append, List.head?_cons,
      Option.some.injEq] at hd
    subst hd
    exact hc

/-- The tail of a run-free list is run-free. -/
theorem noWsRun_tail (c : Char) (l : List Char) (h : noWsRun (c :: l)) : noWsRun l := by
  rcases l with _ | ⟨d, cs⟩
  · trivial
  · exact h.2

/-- Prepending a non-whitespace character preserves run-freeness. -/
theorem noWsRun_cons (c : Char) (l : List Char) (hc : isPySpace c = false) (h : noWsRun l) :
    noWsRun (c :: l) := by
  rcases l with _ | ⟨d, cs⟩
  · trivial
  · exact ⟨fun hh => by rw [hc] at hh; exact absurd hh.1 (by simp), h⟩

/-- Prepending a whitespace-free list preserves run-freeness. -/
theorem noWsRun_append (t rest : List Char) (ht : ∀ c ∈ t, isPySpace c = false)
    (hr : noWsRun rest) : noWsRun (t ++ rest) := by
  induction t with
  | nil => simpa
  | cons c t2 ih =>
    have h2 := ih (fun d hd => ht d (List.mem_cons_of_mem c hd))
    exact noWsRun_cons c _ (ht c (List.mem_cons_self _ _)) h2

/-- Joining nonempty whitespace-free tokens leaves no whitespace runs. -/
theorem joinTokens_noWsRun (toks : List (List Char))
    (h : ∀ t ∈ toks, t ≠ [] ∧ ∀ c ∈ t, isPySpace c = false) :
    noWsRun (joinTokens toks) := by
  induction toks with
  | nil => trivial
  | cons t ts ih =>
    obtain ⟨hne, hcl⟩ := h t (List.mem_cons_self _ _)
    rcases ts with _ | ⟨u, us⟩
    · have h2 : noWsRun (t ++ []) := noWsRun_append t [] hcl trivial
      simpa [joinTokens] using h2
    · rw [show joinTokens (t :: u :: us) = t ++ ' ' :: joinTokens (u :: us) from by
        simp [joinTokens]]
      apply noWsRun_append t _ hcl
      have hj := ih (fun v hv => h v (List.mem_cons_of_mem t hv))
      rcases hju : joinTokens (u :: us) with _ | ⟨d, ds⟩
      · trivial
      · have hd : isPySpace d = false :=
          joinTokens_head_false (u :: us) (fun v hv => h v (List.mem_cons_of_mem t hv)) d
            (by rw [hju]; rfl)
      
        refine ⟨fun hh => by rw [hd] at hh; exact absurd hh.2 (by simp), ?_⟩
        rw [← hju]
        exact hj

/-- `collapseWs` fixes a run-free list whose whitespace is the space. -/
theorem collapseWs_eq_self (l : List Char) (hsp : ∀ c ∈ l, isPySpace c = true → c = ' ')
    (hrun : noWsRun l) : collapseWs l = l := by
  induction l with
  | nil => rfl
  | cons c cs ih =>
    have ihcs : collapseWs cs = cs :=
      ih (fun d hd => hsp d (List.mem_cons_of_mem c hd)) (noWsRun_tail c cs hrun)
    simp only [collapseWs, ihcs]
    by_cases hc : isPySpace c = true
    · have hc2 : c = ' ' := hsp c (List.mem_cons_self _ _) hc
      rw [if_pos hc]
      rcases cs with _ | ⟨d, cs2⟩
      · simp [hc2]
      · have hd : isPySpace d = false := by
          rcases hrun with ⟨hpair, _⟩
          rcases hdd : isPySpace d
          · rfl
          · exact absurd ⟨hc, hdd⟩ hpair
        have hne : (d :: cs2).head? ≠ some ' ' := by
          simp only [List.head?_cons, ne_eq, Option.some.injEq]
          intro hEq
          rw [hEq] at hd
          exact absurd hd (by simp [isPySpace])
        rw [if_neg hne, hc2]
    · rw [if_neg hc]

/-- `dropWhile` fixes a list whose head fails the predicate. -/
theorem dropWhile_eq_self_of_head_false (l : List Char)
    (h : ∀ d, l.head? = some d → isPySpace d = false) : l.dropWhile isPySpace = l := by
  rcases l with _ | ⟨c, cs⟩
  · rfl
  · rw [List.dropWhile_cons]
    have hc := h c rfl
    simp [hc]

/-- `stripWs` fixes a list that neither starts nor ends in whitespace. -/
theorem stripWs_eq_self (l : List Char)
    (hhead : ∀ d, l.head? = some d → isPySpace d = false)
    (hlast : ∀ d, l.reverse.head? = some d → isPySpace d = false) :
    stripWs l = l := by
  unfold stripWs
  rw [dropWhile_eq_self_of_head_false l hhead]
  rw [dropWhile_eq_self_of_head_false l.reverse hlast]
  exact List.reverse_reverse l

/-- The ASCII case map fixes strings of lowercase letters and spaces. -/
theorem map_toLower_eq_self (l : List Char) (h : ∀ c ∈ l, c.isLower = true ∨ c = ' ') :
    l.map Char.toLower = l := by
  induction l with
  | nil => rfl
  | cons c cs ih =>
    have hc : Char.toLower c = c := by
      rcases h c (List.mem_cons_self _ _) with h1 | h1
      · exact toLower_eq_self_of_isLower c h1
      · rw [h1]; decide
    simp only [List.map_cons, hc, ih (fun d hd => h d (List.mem_cons_of_mem c hd))]

/-! ## Tokens produced by the basic pipeline -/

/-- Every token split off the cleaned text is a nonempty word of
lowercase letters. -/
theorem basic_tokens_good (x : String) :
    ∀ tok ∈ splitWs (cleanChars x), tok ≠ [] ∧ ∀ c ∈ tok, c.isLower = true := by
  intro tok htok
  obtain ⟨hne, hch⟩ := splitWsAux_tokens (cleanChars x) [] (by simp) tok htok
  refine ⟨hne, fun c hc => ?_⟩
  obtain ⟨hin, hns⟩ := hch c hc
  rcases hin with hin | hin
  swap
  · simp at hin
  have h2 : c = ' ' ∨ c ∈ (x.toList.map Char.toLower).filter keepChar := by
    unfold cleanChars at hin
    exact mem_collapseWs _ c (mem_stripWs _ c hin)
  rcases h2 with h2 | h2
  · rw [h2] at hns
    exact absurd hns (by simp [isPySpace])
  · rw [List.mem_filter] at h2
    obtain ⟨hmem, hkeep⟩ := h2
    have halpha : c.isAlpha = true := isAlpha_of_keepChar_not_space c hkeep hns
    rw [List.mem_map] at hmem
    obtain ⟨d, _, hd⟩ := hmem
    rw [← hd] at halpha ⊢
    exact toLower_isLower_of_isAlpha d halpha

/-- `basic_preprocess_with` written without its `let`. -/
theorem basic_preprocess_shape (sw : List String) (x : String) :
    basic_preprocess_with sw x =
      String.mk (joinTokens ((splitWs (cleanChars x)).filter
        (fun tok => !(sw.contains (String.mk tok))))) := rfl

/-- `basic_preprocess_with` fixes any space-join of nonempty lowercase
non-stopword tokens. -/
theorem basic_preprocess_with_fixed (sw : List String) (toks : List (List Char))
    (h : ∀ t ∈ toks, t ≠ [] ∧ (∀ c ∈ t, c.isLower = true) ∧
      sw.contains (String.mk t) = false) :
    basic_preprocess_with sw (String.mk (joinTokens toks)) = String.mk (joinTokens toks) := by
  have hnice : ∀ t ∈ toks, t ≠ [] ∧ ∀ c ∈ t, isPySpace c = false := by
    intro t ht
    obtain ⟨h1, h2, _⟩ := h t ht
    exact ⟨h1, fun c hc => isPySpace_eq_false_of_isLower c (h2 c hc)⟩
  have hchars : ∀ c ∈ joinTokens toks, c.isLower = true ∨ c = ' ' := by
    intro c hc
    rcases mem_joinTokens toks c hc with ⟨t, ht, hct⟩ | hc2
    · exact Or.inl ((h t ht).2.1 c hct)
    · exact Or.inr hc2
  have e1 : (joinTokens toks).map Char.toLower = joinTokens toks :=
    map_toLower_eq_self _ hchars
  have e2 : (joinTokens toks).filter keepChar = joinTokens toks := by
    rw [List.filter_eq_self]
    intro c hc
    rcases hchars c hc with h1 | h1
    · exact keepChar_of_isLower c h1
    · rw [h1]; decide
  have e3 : collapseWs (joinTokens toks) = joinTokens toks := by
    apply collapseWs_eq_self
    · intro c hc hsp
      rcases hchars c hc with h1 | h1
      · rw [isPySpace_eq_false_of_isLower c h1] at hsp
        exact absurd hsp (by simp)
      · exact h1
    · exact joinTokens_noWsRun toks hnice
  have e4 : stripWs (joinTokens toks) = joinTokens toks :=
    stripWs_eq_self _ (joinTokens_head_false toks hnice) (joinTokens_reverse_head toks hnice)
  have e5 : cleanChars (String.mk (joinTokens toks)) = joinTokens toks := by
    unfold cleanChars
    rw [show (String.mk (joinTokens toks)).toList = joinTokens toks from rfl]
    rw [e1, e2, e3, e4]
  rw [basic_preprocess_shape, e5, splitWs_joinTokens toks hnice]
  have e6 : (toks.filter fun tok => !(sw.contains (String.mk tok))) = toks := by
    rw [List.filter_eq_self]
    intro t ht
    rw [(h t ht).2.2]
    rfl
  rw [e6]

/-- The surviving tokens of the basic pipeline are nonempty lowercase
words on which the stopword test is negative. -/
theorem basic_kept_good (sw : List String) (x : String) :
    ∀ t ∈ (splitWs (cleanChars x)).filter (fun tok => !(sw.contains (String.mk tok))),
      t ≠ [] ∧ (∀ c ∈ t, c.isLower = true) ∧ sw.contains (String.mk t) = false := by
  intro t ht
  rw [List.mem_filter] at ht
  obtain ⟨hmem, hflt⟩ := ht
  obtain ⟨hne, hlow⟩ := basic_tokens_good x t hmem
  refine ⟨hne, hlow, ?_⟩
  simpa using hflt

/-- Splitting the output of the basic pipeline recovers exactly the
kept tokens. -/
theorem basic_output_split (sw : List String) (x : String) :
    splitWs ((basic_preprocess_with sw x).toList) =
      (splitWs (cleanChars x)).filter (fun tok => !(sw.contains (String.mk tok))) := by
  rw [basic_preprocess_shape]
  rw [show ∀ l, (String.mk l).toList = l from fun _ => rfl]
  apply splitWs_joinTokens
  intro t ht
  obtain ⟨hne, hlow, _⟩ := basic_kept_good sw x t ht
  exact ⟨hne, fun c hc => isPySpace_eq_false_of_isLower c (hlow c hc)⟩

/-! ## Claims about the basic normalizer -/

/-- C4: normalization is idempotent: for every input string `x`,
running the basic pipeline (lowercase, strip non-letters, collapse
whitespace, split, remove stopwords, re-join) on its own output
returns that output unchanged. -/
theorem basic_preprocess_idempotent (x : String) :
    basic_preprocess (some (basic_preprocess (some x))) = basic_preprocess (some x) := by
  show basic_preprocess_with basic_stopwords (basic_preprocess_with basic_stopwords x) =
    basic_preprocess_with basic_stopwords x
  rw [basic_preprocess_shape basic_stopwords x]
  exact basic_preprocess_with_fixed basic_stopwords _ (basic_kept_good basic_stopwords x)

/-- C5: every token of the normalized output already occurs among the
tokens of the cleaned text, and the stopword test is negative on it:
stopword removal introduces nothing and lets no stopword survive. -/
theorem basic_preprocess_token_subset (x : String) (tok : List Char)
    (h : tok ∈ splitWs ((basic_preprocess (some x)).toList)) :
    tok ∈ splitWs (cleanChars x) ∧ basic_stopwords.contains (String.mk tok) = false := by
  rw [show basic_preprocess (some x) = basic_preprocess_with basic_stopwords x from rfl,
    basic_output_split basic_stopwords x, List.mem_filter] at h
  exact ⟨h.1, by simpa using h.2⟩

/-- Witness for C5 on the concrete input "The gain". -/
theorem basic_preprocess_token_subset_witness :
    (['g', 'a', 'i', 'n'] ∈ splitWs ((basic_preprocess (some "The gain")).toList)) ∧
    (['g', 'a', 'i', 'n'] ∈ splitWs (cleanChars "The gain") ∧
      basic_stopwords.contains (String.mk ['g', 'a', 'i', 'n']) = false) :=
  ⟨by decide, basic_preprocess_token_subset "The gain" ['g', 'a', 'i', 'n'] (by decide)⟩

/-- C6: the output of `basic_preprocess` is exactly its own tokens
joined by single spaces (hence no leading/trailing whitespace and no
other separators), and every token is a nonempty word of lowercase
ASCII letters on which the stopword test is negative. -/
theorem basic_preprocess_output_invariant (x : String) :
    (basic_preprocess (some x)).toList =
      joinTokens (splitWs ((basic_preprocess (some x)).toList)) ∧
    ∀ tok ∈ splitWs ((basic_preprocess (some x)).toList),
      tok ≠ [] ∧ (∀ c ∈ tok, c.isLower = true) ∧
        basic_stopwords.contains (String.mk tok) = false := by
  have hb : basic_preprocess (some x) = basic_preprocess_with basic_stopwords x := rfl
  constructor
  · rw [hb, basic_output_split basic_stopwords x, basic_preprocess_shape basic_stopwords x]
    rfl
  · rw [hb, basic_output_split basic_stopwords x]
    exact basic_kept_good basic_stopwords x

/-- Witness for C6 on the concrete input "The gain" and its token. -/
theorem basic_preprocess_output_invariant_witness :
    (['g', 'a', 'i', 'n'] ∈ splitWs ((basic_preprocess (some "The gain")).toList)) ∧
    (['g', 'a', 'i', 'n'] ≠ [] ∧ (∀ c ∈ ['g', 'a', 'i', 'n'], c.isLower = true) ∧
      basic_stopwords.contains (String.mk ['g', 'a', 'i', 'n']) = false) :=
  ⟨by decide,
    (basic_preprocess_output_invariant "The gain").2 ['g', 'a', 'i', 'n'] (by decide)⟩

/-- C7: on `"The Q3 EARNINGS beat expectations!!! 2024"`, cleaning
yields `"the q earnings beat expectations"` (the lone letter `q` of
`q3` survives) and stopword removal then drops `"the"`, so
normalization returns `"q earnings beat expectations"`. -/
theorem basic_preprocess_q3_earnings :
    String.mk (cleanChars "The Q3 EARNINGS beat expectations!!! 2024") =
      "the q earnings beat expectations" ∧
    basic_preprocess (some "The Q3 EARNINGS beat expectations!!! 2024") =
      "q earnings beat expectations" := by
  constructor
  · decide
  · decide

/-- C9 counterexample: the basic stopword set has well over 35
distinct entries. -/
theorem basic_stopwords_not_small :
    35 < basic_stopwords.length ∧ basic_stopwords.Nodup := by
  constructor
  · decide
  · decide

/-- C9 (amended): the fixed basic stopword set has exactly 100
distinct entries and spans pronouns, prepositions, articles,
conjunctions and auxiliary verbs. -/
theorem basic_stopwords_size :
    basic_stopwords.length = 100 ∧ basic_stopwords.Nodup ∧
    "me" ∈ basic_stopwords ∧ "between" ∈ basic_stopwords ∧
    "the" ∈ basic_stopwords ∧ "and" ∈ basic_stopwords ∧ "is" ∈ basic_stopwords := by
  refine ⟨by decide, by decide, by decide, by decide, by decide, by decide, by decide⟩

/-- C10: the apostrophe-containing stopword entries are dead code:
since tokens contain only letters after cleaning, no token can equal
them, so the pipeline with the full stopword list agrees with the
variant whose stopword list omits all apostrophe-containing entries,
on every input. -/
theorem basic_preprocess_noapo_equiv (text : Option String) :
    basic_preprocess text = basic_preprocess_noapo text := by
  rcases text with _ | x
  · rfl
  · show basic_preprocess_with basic_stopwords x = basic_preprocess_with basic_stopwords_noapo x
    rw [basic_preprocess_shape basic_stopwords x,
      basic_preprocess_shape basic_stopwords_noapo x]
    congr 1
    congr 1
    apply List.filter_congr
    intro tok htok
    obtain ⟨hne, hlow⟩ := basic_tokens_good x tok htok
    have hnoap : apos ∉ tok := by
      intro hin
      have h1 := hlow apos hin
      rw [char_isLower_iff] at h1
      revert h1
      decide
    have hmemiff : String.mk tok ∈ basic_stopwords ↔ String.mk tok ∈ basic_stopwords_noapo := by
      unfold basic_stopwords_noapo
      rw [List.mem_filter]
      constructor
      · intro hm
        refine ⟨hm, ?_⟩
        simp only [Bool.not_eq_true']
        rcases hcont : (String.mk tok).toList.contains apos
        · rfl
        · exact absurd (List.elem_iff.mp hcont) hnoap
      · exact fun hm => hm.1
    have hc : basic_stopwords.contains (String.mk tok) =
        basic_stopwords_noapo.contains (String.mk tok) := by
      rcases h1 : basic_stopwords_noapo.contains (String.mk tok)
      · rcases h2 : basic_stopwords.contains (String.mk tok)
        · rfl
        · exfalso
          have h3 : basic_stopwords_noapo.contains (String.mk tok) = true :=
            List.elem_iff.mpr (hmemiff.mp (List.elem_iff.mp h2))
          rw [h1] at h3
          exact Bool.noConfusion h3
      · exact List.elem_iff.mpr (hmemiff.mpr (List.elem_iff.mp h1))
    rw [hc]

/-! ## Claims about the classifier adapter -/

/-- Every entry read off the softmax vector is nonnegative. -/
theorem softmax_getD_nonneg (l : List ℝ) (i : ℕ) : 0 ≤ (softmax l).getD i 0 := by
  by_cases hi : i < (softmax l).length
  · rw [List.getD_eq_getElem _ _ hi]
    unfold softmax at hi ⊢
    rw [List.getElem_map]
    apply div_nonneg (Real.exp_pos _).le
    apply List.sum_nonneg
    intro y hy
    rw [List.mem_map] at hy
    obtain ⟨z, _, hz⟩ := hy
    rw [← hz]
    exact (Real.exp_pos z).le
  · rw [List.getD_eq_default _ _ (Nat.le_of_not_lt hi)]

/-- Every entry read off the softmax vector is at most one. -/
theorem softmax_getD_le_one (l : List ℝ) (i : ℕ) : (softmax l).getD i 0 ≤ 1 := by
  by_cases hi : i < (softmax l).length
  · rw [List.getD_eq_getElem _ _ hi]
    unfold softmax at hi ⊢
    rw [List.getElem_map]
    have hlen : i < l.length := by simpa using hi
    have hmem : Real.exp (l.get ⟨i, hlen⟩) ∈ l.map Real.exp := by
      rw [List.mem_map]
      exact ⟨l.get ⟨i, hlen⟩, List.get_mem l i hlen, rfl⟩
    have hnn : ∀ y ∈ l.map Real.exp, 0 ≤ y := by
      intro y hy
      rw [List.mem_map] at hy
      obtain ⟨z, _, hz⟩ := hy
      rw [← hz]
      exact (Real.exp_pos z).le
    have hle : Real.exp (l.get ⟨i, hlen⟩) ≤ (l.map Real.exp).sum :=
      List.single_le_sum hnn _ hmem
    have hpos : 0 < (l.map Real.exp).sum := lt_of_lt_of_le (Real.exp_pos _) hle
    rw [div_le_one hpos]
    exact hle
  · rw [List.getD_eq_default _ _ (Nat.le_of_not_lt hi)]
    norm_num

/-- C8: whenever the model is invoked and returns logits, the reported
label is the argmax-consistent one (`Positive` exactly for index 1,
`Negative/Neutral` otherwise), the confidence is the softmax
probability at the selected index, and it lies in `[0, 1]`. -/
theorem predict_sentiment_model_path (model : String → Except String (List ℝ))
    (imports : Except String Unit)
    (word_tokenize : String → Except String (List String))
    (stopwords_words : Except String (List String))
    (nltk_ready : Bool) (text : Option String) (logits : List ℝ)
    (hne : preprocess_text imports word_tokenize stopwords_words nltk_ready text ≠ "")
    (hok : model (preprocess_text imports word_tokenize stopwords_words nltk_ready text) =
      Except.ok logits) :
    predict_sentiment model imports word_tokenize stopwords_words nltk_ready text =
      Except.ok ((if argmax (softmax logits) = 1 then "Positive" else "Negative/Neutral"),
        (softmax logits).getD (argmax (softmax logits)) 0) ∧
    0 ≤ (softmax logits).getD (argmax (softmax logits)) 0 ∧
    (softmax logits).getD (argmax (softmax logits)) 0 ≤ 1 := by
  refine ⟨?_, softmax_getD_nonneg logits _, softmax_getD_le_one logits _⟩
  unfold predict_sentiment predict_sentiment_run
  rw [if_neg hne, hok]

/-- Witness for C8 on a concrete success path. -/
theorem predict_sentiment_model_path_witness :
    predict_sentiment modelConst (Except.ok ()) nltkTokOk nltkStopOk false (some "gain") =
      Except.ok ((if argmax (softmax [0, 0]) = 1 then "Positive" else "Negative/Neutral"),
        (softmax [0, 0]).getD (argmax (softmax [0, 0])) 0) ∧
    0 ≤ (softmax [0, 0]).getD (argmax (softmax [0, 0])) 0 ∧
    (softmax [0, 0]).getD (argmax (softmax [0, 0])) 0 ≤ 1 :=
  predict_sentiment_model_path modelConst (Except.ok ()) nltkTokOk nltkStopOk false
    (some "gain") [0, 0] (by decide) rfl

/-- C1 (amended): `predict_sentiment` contains no exception handler:
when the model invocation raises, the exception propagates to the
caller unchanged, and no `("Error", 0.0)` sentinel is produced. -/
theorem predict_sentiment_propagates_model_error
    (model : String → Except String (List ℝ))
    (imports : Except String Unit)
    (word_tokenize : String → Except String (List String))
    (stopwords_words : Except String (List String))
    (nltk_ready : Bool) (text : Option String) (e : String)
    (hne : preprocess_text imports word_tokenize stopwords_words nltk_ready text ≠ "")
    (herr : model (preprocess_text imports word_tokenize stopwords_words nltk_ready text) =
      Except.error e) :
    predict_sentiment model imports word_tokenize stopwords_words nltk_ready text =
      Except.error e := by
  unfold predict_sentiment predict_sentiment_run
  rw [if_neg hne, herr]

/-- Witness for C1 on a concrete raising model. -/
theorem predict_sentiment_propagates_model_error_witness :
    predict_sentiment modelBoom (Except.ok ()) nltkTokOk nltkStopOk false (some "profit") =
      Except.error "RuntimeError" :=
  predict_sentiment_propagates_model_error modelBoom (Except.ok ()) nltkTokOk nltkStopOk
    false (some "profit") "RuntimeError" (by decide) rfl

/-- C1 counterexample: on the input "gain" with a raising model, the
call evaluates to the propagated exception, not to the claimed
`("Error", 0.0)` result. -/
theorem predict_sentiment_raises_uncaught :
    predict_sentiment modelBoom (Except.ok ()) nltkTokOk nltkStopOk false (some "gain") =
      Except.error "RuntimeError" ∧
    predict_sentiment modelBoom (Except.ok ()) nltkTokOk nltkStopOk false (some "gain") ≠
      Except.ok ("Error", 0) := by
  have h : predict_sentiment modelBoom (Except.ok ()) nltkTokOk nltkStopOk false
      (some "gain") = Except.error "RuntimeError" := by
    unfold predict_sentiment predict_sentiment_run
    rw [if_neg (by decide)]
    rfl
  refine ⟨h, ?_⟩
  rw [h]
  intro hc
  exact Except.noConfusion hc

/-- C2: whenever normalization yields the empty string (in particular
for empty, whitespace-only and non-string input), `predict_sentiment`
returns the sentinel `("Unknown", 0.0)` and the tokenizer/model pair
is never invoked on that call. -/
theorem predict_sentiment_empty_short_circuit
    (model : String → Except String (List ℝ))
    (imports : Except String Unit)
    (word_tokenize : String → Except String (List String))
    (stopwords_words : Except String (List String))
    (nltk_ready : Bool) (text : Option String)
    (h : preprocess_text imports word_tokenize stopwords_words nltk_ready text = "") :
    predict_sentiment_run model imports word_tokenize stopwords_words nltk_ready text =
      (Except.ok ("Unknown", 0), false) := by
  unfold predict_sentiment_run
  rw [if_pos h]

/-- Witness for C2 on the non-string input. -/
theorem predict_sentiment_empty_short_circuit_witness :
    predict_sentiment_run modelConst (Except.ok ()) nltkTokOk nltkStopOk false none =
      (Except.ok ("Unknown", 0), false) :=
  predict_sentiment_empty_short_circuit modelConst (Except.ok ()) nltkTokOk nltkStopOk
    false none rfl

/-- C3: `preprocess_text` never propagates a failure: if NLTK was not
ready at startup, or the imports, `word_tokenize`, or
`stopwords.words` call fails at call time, the call returns
`basic_preprocess` of the input instead (and `basic_preprocess`
itself is a total function by construction). -/
theorem preprocess_text_falls_back (imports : Except String Unit)
    (word_tokenize : String → Except String (List String))
    (stopwords_words : Except String (List String))
    (nltk_ready : Bool) (text : Option String)
    (h : nltk_ready = false ∨ (∃ e, imports = Except.error e) ∨
      (∃ s e, text = some s ∧ word_tokenize (String.mk (cleanChars s)) = Except.error e) ∨
      (∃ e, stopwords_words = Except.error e)) :
    preprocess_text imports word_tokenize stopwords_words nltk_ready text =
      basic_preprocess text := by
  unfold preprocess_text
  rcases h with h | ⟨e, he⟩ | ⟨s, e, hs, hw⟩ | ⟨e, he⟩
  · rw [if_pos h]
  · cases nltk_ready
    · rw [if_pos rfl]
    · rw [if_neg (by simp)]
      rw [he]
  · subst hs
    cases nltk_ready
    · rw [if_pos rfl]
    · rw [if_neg (by simp)]
      rcases imports with e2 | u
      · rfl
      · simp [hw]
  · cases nltk_ready
    · rw [if_pos rfl]
    · rw [if_neg (by simp)]
      rcases imports with e2 | u
      · rfl
      · rcases text with _ | s
        · rfl
        · rcases hw : word_tokenize (String.mk (cleanChars s)) with e3 | toks
          · simp [hw]
          · simp [hw, he]

/-- Witness for C3 on a concrete raising `word_tokenize`. -/
theorem preprocess_text_falls_back_witness :
    preprocess_text (Except.ok ()) nltkTokFail nltkStopOk true (some "The gain") =
      basic_preprocess (some "The gain") :=
  preprocess_text_falls_back (Except.ok ()) nltkTokFail nltkStopOk true (some "The gain")
    (Or.inr (Or.inr (Or.inl ⟨"The gain", "LookupError", rfl, rfl⟩)))
